import Mathlib

/-!
Verification of the MiTEE LQR attitude controller (`controller.c`).

Shallow embedding of the LQR controller from `src/controller.c` over exact
rational arithmetic.  The C code computes with IEEE doubles through GSL; every
arithmetic step of the source is mirrored here over `ℚ`, with GSL calls
translated operation by operation:

* `gsl_blas_dgemm(opA, opB, alpha, A, B, beta, C)` becomes
  `alpha • (A * B) + beta • C` (with transposes applied as flagged);
* `invert` (the file's LU-based inversion helper) becomes
  `det⁻¹ • adjugate`, which agrees with Mathlib's matrix inverse on every
  input — including singular ones, where the C code silently produces an
  undefined result (the model makes that concrete as the zero matrix, the
  field convention `0⁻¹ = 0`);
* the discretized dynamics matrix `A_d = exp(4 · A_c)` is transcendental, so
  functions that read it (and the other constant matrices of the controller
  struct) take it as an explicit parameter, exactly as the code reads it from
  the `Controller` struct;
* the unbounded `do … while` Newton loop is modelled with an explicit fuel
  parameter: `none` means the loop is still running after `fuel` iterations
  (the C code has no such bound and simply has not returned yet), `some S`
  means the loop exited, which in the source happens only through its
  convergence test.

Statics that cache constant matrices across calls (`transform`, `N`,
`R_inverse`, `A_d_transpose`, …) depend only on the time-invariant block of
the controller, so in this pure model each call recomputes the same value the
cache would hold; purity of the functions is the model of the cache's
determinism.
-/

open scoped Matrix

/-- Rational 6×6 matrices (state-space blocks). -/
abbrev M66 := Matrix (Fin 6) (Fin 6) ℚ

/-- Rational 3×3 matrices. -/
abbrev M33 := Matrix (Fin 3) (Fin 3) ℚ

/-- Rational 6×3 matrices (input maps `B_c`, `B_d`). -/
abbrev M63 := Matrix (Fin 6) (Fin 3) ℚ

/-- Rational 3×6 matrices (gain `K`). -/
abbrev M36 := Matrix (Fin 3) (Fin 6) ℚ

/-- Rational 12×12 matrices (Hamiltonian-level blocks). -/
abbrev M12 := Matrix (Fin 12) (Fin 12) ℚ

/-- Mean motion of the satellite orbit [rad/s]: `#define MEAN_MOTION 1.144035952968e-3`. -/
def MEAN_MOTION : ℚ := 1.144035952968e-3

/-- Error tolerance of the Newton-Raphson loop: `#define NR_TOLERANCE 1e-3`. -/
def NR_TOLERANCE : ℚ := 1e-3

/-- Model of `invert` from `controller.c`: LU-based matrix inversion.  Over an exact
field, LU inversion computes `det⁻¹ • adjugate`; the C function is `void`,
performs no singularity or conditioning check, and returns nothing but the
output buffer, so the model is a total function. -/
def invert {n : ℕ} (mat : Matrix (Fin n) (Fin n) ℚ) : Matrix (Fin n) (Fin n) ℚ :=
  mat.det⁻¹ • mat.adjugate

/-- Model of `concatenate2x2` from `controller.c`, at the 6×6 block size used by the
solver: writes the four blocks into the quadrants of a 12×12 result via
`gsl_matrix_submatrix` views. -/
def concatenate2x2 (a b c d : M66) : M12 := fun i j =>
  if hi : (i : ℕ) < 6 then
    if hj : (j : ℕ) < 6 then a ⟨i, hi⟩ ⟨j, hj⟩
    else b ⟨i, hi⟩ ⟨(j : ℕ) - 6, by have := j.isLt; omega⟩
  else
    if hj : (j : ℕ) < 6 then c ⟨(i : ℕ) - 6, by have := i.isLt; omega⟩ ⟨j, hj⟩
    else d ⟨(i : ℕ) - 6, by have := i.isLt; omega⟩ ⟨(j : ℕ) - 6, by have := j.isLt; omega⟩

/-- Model of `concatenate_vertical` from `controller.c`, at the 3×3 block size used by
`computeBMatrices`: stacks `a` on top of `b` into a 6×3 result. -/
def concatenate_vertical (a b : M33) : M63 := fun i j =>
  if hi : (i : ℕ) < 3 then a ⟨i, hi⟩ j
  else b ⟨(i : ℕ) - 3, by have := i.isLt; omega⟩ j

/-- The skew cross-product matrix `bmat` built inside `computeBMatrices`
(lines 152–159): `{0, -b3, b2; b3, 0, -b1; -b2, b1, 0}` with the C names
`b1 = b 0`, `b2 = b 1`, `b3 = b 2`. -/
def crossMatrix (b : Fin 3 → ℚ) : M33 :=
  Matrix.of ![![0, -(b 2), b 1], ![b 2, 0, -(b 0)], ![-(b 1), b 0, 0]]

/-- Model of `updateSensors` from `controller.c`: reads raw sensor values `xraw`
(angular position in slots 0–2, angular velocity in slots 3–5) and `braw`,
then executes `x[4] += MEAN_MOTION` before storing, so the stored state is the
difference from the nominal equilibrium point; `b` is stored as read. -/
def updateSensors (xraw : Fin 6 → ℚ) (braw : Fin 3 → ℚ) :
    (Fin 6 → ℚ) × (Fin 3 → ℚ) :=
  (Function.update xraw 4 (xraw 4 + MEAN_MOTION), braw)

/-- Model of `computeBMatrices` from `controller.c`: builds `(B_c, B_d)` from the
current field vector `b` and the constant matrices `A_c`, `A_d`, `J` of the
controller.  The first-call block computes `J_inv`, `A_c_inv`, `I_minus_A_d`
and `transform = -A_c⁻¹ * (I - A_d)`; each of these depends only on the
constant parameters, so the cached value is the value recomputed here.  The
per-call part forms `bmat`, `bT_b = b·b`, `quotient = (1/bT_b)·bmat·bmat`
(the C divides with no zero check), `B_c` by vertical concatenation with the
3×3 zero block on top, and `B_d = transform * B_c`. -/
def computeBMatrices (A_c A_d : M66) (J : M33) (b : Fin 3 → ℚ) : M63 × M63 :=
  let J_inv := invert J
  let A_c_inv := invert A_c
  let I_minus_A_d := 1 - A_d
  let transform := (-1 : ℚ) • (A_c_inv * I_minus_A_d)
  let bmat := crossMatrix b
  let bT_b := b ⬝ᵥ b
  let quotient := (1 / bT_b) • (bmat * bmat)
  let J_inv_quotient := J_inv * quotient
  let B_c := concatenate_vertical 0 J_inv_quotient
  let B_d := transform * B_c
  (B_c, B_d)

/-- Model of `newtonRaphsonConverged` from `controller.c`: the nested loops return
`false` as soon as one of the 144 entries of `S - S_prev` exceeds
`NR_TOLERANCE` in absolute value, and `true` once all entries have been
checked — i.e. the test is the universal elementwise bound. -/
def newtonRaphsonConverged (S S_prev : M12) : Bool :=
  decide (∀ i j : Fin 12, |S i j - S_prev i j| ≤ NR_TOLERANCE)

/-- The `do … while` body of `runNewtonRaphsonProcess`, with fuel.  One pass
copies `S` into `S_prev`, runs `invert`, then
`gsl_blas_dgemm(0.5, S_inverse, H_squared, 0.5, S)`, i.e.
`S ← 0.5·S⁻¹·H² + 0.5·S`, and loops unless `newtonRaphsonConverged`.
`none` models the loop still running after `fuel` passes. -/
def newtonLoop (H_squared : M12) : ℕ → M12 → Option M12
  | 0, _ => none
  | fuel + 1, S =>
    let Snext := (1/2 : ℚ) • (invert S * H_squared) + (1/2 : ℚ) • S
    if newtonRaphsonConverged Snext S then some Snext else newtonLoop H_squared fuel Snext

/-- Model of `runNewtonRaphsonProcess` from `controller.c`: `Sbuf` is the content the
caller's output buffer holds on entry (the previous cycle's solution, since
the buffer is a persistent static); the function overwrites it with the
identity (`gsl_matrix_set_identity(S)`) before iterating, so `Sbuf` is dead.
Then `H_squared = H·H` and the loop runs with no iteration cap. -/
def runNewtonRaphsonProcess (H Sbuf : M12) (fuel : ℕ) : Option M12 :=
  newtonLoop (H * H) fuel 1

/-- Model of `computePMatrix` from `controller.c`: forms the constant block matrix
`N = [[A_d, 0], [-Q, I]]`, the per-cycle `L = [[I, B_d·R⁻¹·B_dᵗ], [0, A_dᵗ]]`,
the Hamiltonian-derived `H = (N+L)⁻¹·(N-L)`, runs the Newton process on `H`
(handing it the persistent `S` buffer, modelled by the identity — its content
is ignored, see `runNewtonRaphsonProcess`), then extracts the top-left block
`X1` and bottom-left block `X2` of `H - S` and returns `P = X2·X1⁻¹`.
The fuel threads through the unbounded Newton loop. -/
def computePMatrix (A_d Q : M66) (R : M33) (B_d : M63) (fuel : ℕ) : Option M66 :=
  let negativeQ := (-1 : ℚ) • Q
  let N := concatenate2x2 A_d 0 negativeQ 1
  let R_inverse := invert R
  let A_d_transpose := A_dᵀ
  let Rinv_BdT := R_inverse * B_dᵀ
  let Bd_Rinv_BdT := B_d * Rinv_BdT
  let L := concatenate2x2 1 Bd_Rinv_BdT 0 A_d_transpose
  let N_plus_L := N + L
  let N_plus_L_inverse := invert N_plus_L
  let N_minus_L := N - L
  let H := N_plus_L_inverse * N_minus_L
  (runNewtonRaphsonProcess H 1 fuel).map fun S =>
    let HmS := H - S
    let X1 := HmS.submatrix (Fin.castAdd 6) (Fin.castAdd 6)
    let X2 := HmS.submatrix (Fin.natAdd 6) (Fin.castAdd 6)
    let X1_inverse := invert X1
    X2 * X1_inverse

/-- Model of `computeGainMatrix` from `controller.c`:
`K = (R + B_dᵗ·P·B_d)⁻¹ · B_dᵗ·P·A_d`, assembled through the same dgemm
sequence as the source (`P_Ad`, `BdT_P_Ad`, `P_Bd`, `BdT_P_Bd`, the sum with
`R`, one `invert`, and a final multiply). -/
def computeGainMatrix (P A_d : M66) (B_d : M63) (R : M33) : M36 :=
  let P_Ad := P * A_d
  let BdT_P_Ad := B_dᵀ * P_Ad
  let P_Bd := P * B_d
  let BdT_P_Bd := B_dᵀ * P_Bd
  let R_plus_BdT_P_Bd := R + BdT_P_Bd
  let R_plus_BdT_P_Bd_inv := invert R_plus_BdT_P_Bd
  R_plus_BdT_P_Bd_inv * BdT_P_Ad

/-- A 12×12 matrix whose square is `-2 • 1`: six diagonal copies of the 2×2
block `[[0, -2], [1, 0]]`.  Used to exhibit an input on which the uncapped
Newton loop never meets its tolerance. -/
def Hstar : M12 := fun i j =>
  if (i : ℕ) = (j : ℕ) + 1 ∧ (j : ℕ) % 2 = 0 then 1
  else if (j : ℕ) = (i : ℕ) + 1 ∧ (i : ℕ) % 2 = 0 then -2
  else 0

/-! ## Basic facts about the embedded primitives -/

/-- LU inversion agrees with Mathlib's matrix inverse on every input (both
are `det⁻¹ • adjugate` over a field). -/
theorem invert_eq_inv {n : ℕ} (M : Matrix (Fin n) (Fin n) ℚ) : invert M = M⁻¹ := by
  rw [invert, Matrix.inv_def, Ring.inverse_eq_inv]

/-- The convergence test of the C loop is the universal elementwise bound. -/
theorem newtonRaphsonConverged_iff (S S_prev : M12) :
    newtonRaphsonConverged S S_prev = true ↔
      ∀ i j : Fin 12, |S i j - S_prev i j| ≤ NR_TOLERANCE := by
  rw [newtonRaphsonConverged, decide_eq_true_iff]

/-- The submatrix-view concatenation of the C helper is Mathlib's block
matrix, transported along `finSumFinEquiv`. -/
theorem concatenate2x2_eq (a b c d : M66) :
    concatenate2x2 a b c d =
      Matrix.reindex finSumFinEquiv finSumFinEquiv (Matrix.fromBlocks a b c d) := by
  ext i j
  rw [Matrix.reindex_apply, Matrix.submatrix_apply]
  by_cases hi : (i : ℕ) < 6 <;> by_cases hj : (j : ℕ) < 6
  · rw [show i = Fin.castAdd 6 (⟨(i:ℕ), hi⟩ : Fin 6) from Fin.ext rfl,
      show j = Fin.castAdd 6 (⟨(j:ℕ), hj⟩ : Fin 6) from Fin.ext rfl,
      finSumFinEquiv_symm_apply_castAdd, finSumFinEquiv_symm_apply_castAdd,
      Matrix.fromBlocks_apply₁₁, concatenate2x2]
    rw [dif_pos (show ((Fin.castAdd 6 (⟨(i:ℕ), hi⟩ : Fin 6) : Fin 12) : ℕ) < 6 from hi),
      dif_pos (show ((Fin.castAdd 6 (⟨(j:ℕ), hj⟩ : Fin 6) : Fin 12) : ℕ) < 6 from hj)]
    rfl
  · rw [show i = Fin.castAdd 6 (⟨(i:ℕ), hi⟩ : Fin 6) from Fin.ext rfl,
      show j = Fin.natAdd 6 (⟨(j:ℕ) - 6, by have := j.isLt; omega⟩ : Fin 6) from
        Fin.ext (show (j:ℕ) = 6 + ((j:ℕ) - 6) by omega),
      finSumFinEquiv_symm_apply_castAdd, finSumFinEquiv_symm_apply_natAdd,
      Matrix.fromBlocks_apply₁₂, concatenate2x2]
    rw [dif_pos (show ((Fin.castAdd 6 (⟨(i:ℕ), hi⟩ : Fin 6) : Fin 12) : ℕ) < 6 from hi),
      dif_neg (show ¬ ((Fin.natAdd 6 (⟨(j:ℕ) - 6, by have := j.isLt; omega⟩ : Fin 6) : Fin 12) : ℕ) < 6 from by
        show ¬ 6 + ((j:ℕ) - 6) < 6; omega)]
    exact congrArg₂ _ (Fin.ext rfl)
      (Fin.ext (show (6 + ((j:ℕ) - 6)) - 6 = (j:ℕ) - 6 by omega))
  · rw [show i = Fin.natAdd 6 (⟨(i:ℕ) - 6, by have := i.isLt; omega⟩ : Fin 6) from
        Fin.ext (show (i:ℕ) = 6 + ((i:ℕ) - 6) by omega),
      show j = Fin.castAdd 6 (⟨(j:ℕ), hj⟩ : Fin 6) from Fin.ext rfl,
      finSumFinEquiv_symm_apply_natAdd, finSumFinEquiv_symm_apply_castAdd,
      Matrix.fromBlocks_apply₂₁, concatenate2x2]
    rw [dif_neg (show ¬ ((Fin.natAdd 6 (⟨(i:ℕ) - 6, by have := i.isLt; omega⟩ : Fin 6) : Fin 12) : ℕ) < 6 from by
        show ¬ 6 + ((i:ℕ) - 6) < 6; omega),
      dif_pos (show ((Fin.castAdd 6 (⟨(j:ℕ), hj⟩ : Fin 6) : Fin 12) : ℕ) < 6 from hj)]
    exact congrArg₂ _
      (Fin.ext (show (6 + ((i:ℕ) - 6)) - 6 = (i:ℕ) - 6 by omega)) (Fin.ext rfl)
  · rw [show i = Fin.natAdd 6 (⟨(i:ℕ) - 6, by have := i.isLt; omega⟩ : Fin 6) from
        Fin.ext (show (i:ℕ) = 6 + ((i:ℕ) - 6) by omega),
      show j = Fin.natAdd 6 (⟨(j:ℕ) - 6, by have := j.isLt; omega⟩ : Fin 6) from
        Fin.ext (show (j:ℕ) = 6 + ((j:ℕ) - 6) by omega),
      finSumFinEquiv_symm_apply_natAdd, finSumFinEquiv_symm_apply_natAdd,
      Matrix.fromBlocks_apply₂₂, concatenate2x2]
    rw [dif_neg (show ¬ ((Fin.natAdd 6 (⟨(i:ℕ) - 6, by have := i.isLt; omega⟩ : Fin 6) : Fin 12) : ℕ) < 6 from by
        show ¬ 6 + ((i:ℕ) - 6) < 6; omega),
      dif_neg (show ¬ ((Fin.natAdd 6 (⟨(j:ℕ) - 6, by have := j.isLt; omega⟩ : Fin 6) : Fin 12) : ℕ) < 6 from by
        show ¬ 6 + ((j:ℕ) - 6) < 6; omega)]
    exact congrArg₂ _
      (Fin.ext (show (6 + ((i:ℕ) - 6)) - 6 = (i:ℕ) - 6 by omega))
      (Fin.ext (show (6 + ((j:ℕ) - 6)) - 6 = (j:ℕ) - 6 by omega))

/-- Top block of the vertical concatenation. -/
theorem concatenate_vertical_top (a b : M33) :
    (concatenate_vertical a b).submatrix (Fin.castAdd 3) id = a := by
  ext i j
  simp [concatenate_vertical, Matrix.submatrix_apply, Fin.castAdd, Fin.castLE, i.isLt]

/-- Bottom block of the vertical concatenation. -/
theorem concatenate_vertical_bot (a b : M33) :
    (concatenate_vertical a b).submatrix (Fin.natAdd 3) id = b := by
  ext i j
  simp [concatenate_vertical, Matrix.submatrix_apply, Fin.natAdd]

/-! ## Newton iteration: step algebra, exit characterization, divergence -/

/-- One-step unfolding of the Newton loop. -/
theorem newtonLoop_succ (H2 : M12) (n : ℕ) (S : M12) :
    newtonLoop H2 (n + 1) S =
      if newtonRaphsonConverged ((1/2 : ℚ) • (invert S * H2) + (1/2 : ℚ) • S) S
      then some ((1/2 : ℚ) • (invert S * H2) + (1/2 : ℚ) • S)
      else newtonLoop H2 n ((1/2 : ℚ) • (invert S * H2) + (1/2 : ℚ) • S) := rfl

/-- The tolerance constant, as a plain fraction. -/
theorem NR_TOLERANCE_eq : NR_TOLERANCE = 1/1000 := by norm_num [NR_TOLERANCE]

/-- The dgemm update of the loop body is the textbook Newton square-root
update `S ← ½·(S + S⁻¹·H²)`. -/
theorem newtonStep_eq (H2 S : M12) :
    (1/2 : ℚ) • (invert S * H2) + (1/2 : ℚ) • S = (1/2 : ℚ) • (S + S⁻¹ * H2) := by
  rw [invert_eq_inv, smul_add, add_comm]

/-- Inverting a nonzero scalar multiple of the identity. -/
theorem invert_smul_one (s : ℚ) (hs : s ≠ 0) : invert (s • (1 : M12)) = s⁻¹ • 1 := by
  rw [invert_eq_inv]
  apply Matrix.inv_eq_right_inv
  rw [Matrix.smul_mul, Matrix.mul_smul, one_mul, smul_smul, mul_inv_cancel₀ hs, one_smul]

/-- No rational squares to `2` (descent through the irrationality of `√2`). -/
theorem no_rat_sq_two (q : ℚ) : q ^ 2 ≠ 2 := by
  intro h
  have h2 : ((q : ℝ)) ^ 2 = 2 := by exact_mod_cast h
  have hs : Real.sqrt 2 = |(q : ℝ)| := by
    rw [← h2, Real.sqrt_sq_eq_abs]
  have hmem : ((|q| : ℚ) : ℝ) = Real.sqrt 2 := by
    rw [hs]; push_cast; rfl
  exact irrational_sqrt_two ⟨|q|, hmem⟩

/-- On the scalar line `s • 1` with `H² = -2 • 1`, the Newton update is the
scalar recurrence `s ↦ (s² - 2)/(2s)`. -/
theorem newtonStep_smul_one (s : ℚ) (hs : s ≠ 0) :
    (1/2 : ℚ) • (invert (s • (1 : M12)) * ((-2 : ℚ) • 1)) + (1/2 : ℚ) • (s • (1 : M12))
      = ((s ^ 2 - 2) / (2 * s)) • 1 := by
  rw [invert_smul_one s hs, Matrix.smul_mul, Matrix.mul_smul, one_mul, smul_smul, smul_smul,
    smul_smul, ← add_smul]
  congr 1
  field_simp
  ring

/-- Two scalar multiples of the identity whose scalars differ by more than
the tolerance do not pass the convergence test (seen at entry `(0,0)`). -/
theorem newtonConverged_smul_one_false (s t : ℚ) (h : NR_TOLERANCE < |t - s|) :
    newtonRaphsonConverged (t • (1 : M12)) (s • (1 : M12)) = false := by
  rw [Bool.eq_false_iff]
  intro hc
  have hall := (newtonRaphsonConverged_iff _ _).1 hc 0 0
  simp only [Matrix.smul_apply, Matrix.one_apply_eq, smul_eq_mul, mul_one] at hall
  linarith

/-- The scalar Newton recurrence for `-2` never reaches `0` … -/
theorem phi_ne_zero {s : ℚ} (hs : s ≠ 0) (hs2 : s ^ 2 ≠ 2) : (s ^ 2 - 2) / (2 * s) ≠ 0 :=
  div_ne_zero (sub_ne_zero.2 hs2) (mul_ne_zero two_ne_zero hs)

/-- The scalar recurrence never reaches a square root of `2` (none exists in `ℚ`). -/
theorem phi_sq_ne_two {s : ℚ} (hs : s ≠ 0) : ((s ^ 2 - 2) / (2 * s)) ^ 2 ≠ 2 := by
  intro h
  have h2s : (2 * s) ≠ 0 := mul_ne_zero two_ne_zero hs
  have hq : (s ^ 2 - 2) ^ 2 = 2 * (2 * s) ^ 2 := by
    field_simp at h
    linarith
  have key : ((s ^ 2 - 6) / 4) ^ 2 = 2 := by
    field_simp
    linear_combination hq
  exact no_rat_sq_two _ key

/-- The scalar recurrence always moves by more than the tolerance (`|s + 2/s| ≥ 2√2`). -/
theorem phi_far {s : ℚ} (hs : s ≠ 0) :
    NR_TOLERANCE < |((s ^ 2 - 2) / (2 * s)) - s| := by
  have h2s : (2 * s) ≠ 0 := mul_ne_zero two_ne_zero hs
  have heq : ((s ^ 2 - 2) / (2 * s)) - s = -((s ^ 2 + 2) / (2 * s)) := by
    field_simp
    ring
  rw [heq, abs_neg, abs_div, NR_TOLERANCE_eq, div_lt_div_iff₀ (by norm_num) (abs_pos.2 h2s)]
  have habs : |s ^ 2 + 2| = s ^ 2 + 2 := abs_of_pos (by positivity)
  have habs2 : |2 * s| = 2 * |s| := by rw [abs_mul]; norm_num
  rw [habs, habs2]
  nlinarith [sq_abs s, sq_nonneg (|s| - 1), abs_nonneg s]

/-- With `H² = -2 • 1` the loop never exits: every iterate is a scalar
multiple of the identity and every step moves past the tolerance. -/
theorem newtonLoop_neg_two_none : ∀ (fuel : ℕ) (s : ℚ), s ≠ 0 → s ^ 2 ≠ 2 →
    newtonLoop ((-2 : ℚ) • 1) fuel (s • 1) = none := by
  intro fuel
  induction fuel with
  | zero => intro s hs hs2; rfl
  | succ n ih =>
    intro s hs hs2
    rw [newtonLoop_succ, newtonStep_smul_one s hs,
      newtonConverged_smul_one_false s _ (phi_far hs), if_neg Bool.false_ne_true]
    exact ih _ (phi_ne_zero hs hs2) (phi_sq_ne_two hs)

set_option maxHeartbeats 2000000 in
/-- The matrix `Hstar` squares to `-2 • 1`. -/
theorem hstar_sq : Hstar * Hstar = (-2 : ℚ) • 1 := by
  ext i j
  rw [Matrix.mul_apply]
  fin_cases i <;> fin_cases j <;>
    simp [Fin.sum_univ_succ, Hstar, Matrix.one_apply]

/-- The Newton process runs forever on `Hstar`, whatever the fuel. -/
theorem runNewton_hstar_none (Sbuf : M12) (fuel : ℕ) :
    runNewtonRaphsonProcess Hstar Sbuf fuel = none := by
  rw [runNewtonRaphsonProcess, hstar_sq]
  have h := newtonLoop_neg_two_none fuel 1 one_ne_zero (by norm_num)
  rw [one_smul] at h
  exact h

/-- The only way the loop produces a value is that its final iterate passed
the convergence test against the previous iterate. -/
theorem newtonLoop_some (H2 : M12) : ∀ (fuel : ℕ) (S0 S : M12),
    newtonLoop H2 fuel S0 = some S →
    ∃ Sp : M12, S = (1/2 : ℚ) • (invert Sp * H2) + (1/2 : ℚ) • Sp ∧
      newtonRaphsonConverged S Sp = true := by
  intro fuel
  induction fuel with
  | zero => intro S0 S h; exact Option.noConfusion h
  | succ n ih =>
    intro S0 S h
    rw [newtonLoop_succ] at h
    by_cases hc :
        newtonRaphsonConverged ((1/2 : ℚ) • (invert S0 * H2) + (1/2 : ℚ) • S0) S0 = true
    · rw [if_pos hc] at h
      obtain rfl : ((1/2 : ℚ) • (invert S0 * H2) + (1/2 : ℚ) • S0) = S := by injection h
      exact ⟨S0, rfl, hc⟩
    · rw [if_neg hc] at h
      exact ih _ _ h

/-- On `H = 1` the loop converges on its very first pass, to the identity. -/
theorem runNewton_id_one : runNewtonRaphsonProcess 1 1 1 = some 1 := by
  have hstep : (1/2 : ℚ) • (invert (1 : M12) * ((1 : M12) * 1)) + (1/2 : ℚ) • (1 : M12)
      = 1 := by
    rw [invert_eq_inv, inv_one, one_mul, one_mul, ← add_smul]
    norm_num
  have hconv : newtonRaphsonConverged (1 : M12) 1 = true := by
    rw [newtonRaphsonConverged_iff]
    intro i j
    rw [sub_self, abs_zero, NR_TOLERANCE_eq]
    norm_num
  rw [runNewtonRaphsonProcess, newtonLoop_succ, hstep, hconv, if_pos rfl]

/-- Specification-side trace of the Newton square-root iteration: the run
starts from the given iterate, every pass applies `S ← ½·(S + S⁻¹·H²)`
(Mathlib's inverse), the run stops with `some` exactly when all 144 entries
of the difference to the previous iterate are within `1e-3` in absolute
value, and `none` records that the fuel ran out mid-iteration. -/
inductive NewtonTrace (H : M12) : ℕ → M12 → Option M12 → Prop where
  | fuelOut (S : M12) : NewtonTrace H 0 S none
  | done (fuel : ℕ) (S Snext : M12) :
      Snext = (1/2 : ℚ) • (S + S⁻¹ * (H * H)) →
      (∀ i j : Fin 12, |Snext i j - S i j| ≤ (1e-3 : ℚ)) →
      NewtonTrace H (fuel + 1) S (some Snext)
  | step (fuel : ℕ) (S Snext : M12) (r : Option M12) :
      Snext = (1/2 : ℚ) • (S + S⁻¹ * (H * H)) →
      ¬ (∀ i j : Fin 12, |Snext i j - S i j| ≤ (1e-3 : ℚ)) →
      NewtonTrace H fuel Snext r →
      NewtonTrace H (fuel + 1) S r

/-- The embedded loop follows the specification trace from any iterate. -/
theorem newtonLoop_trace (H : M12) : ∀ (fuel : ℕ) (S : M12),
    NewtonTrace H fuel S (newtonLoop (H * H) fuel S) := by
  intro fuel
  induction fuel with
  | zero => intro S; exact NewtonTrace.fuelOut S
  | succ n ih =>
    intro S
    rw [newtonLoop_succ]
    by_cases hc :
        newtonRaphsonConverged ((1/2 : ℚ) • (invert S * (H * H)) + (1/2 : ℚ) • S) S = true
    · rw [if_pos hc]
      exact NewtonTrace.done n S _ (newtonStep_eq _ _)
        ((newtonRaphsonConverged_iff _ _).1 hc)
    · rw [if_neg hc]
      exact NewtonTrace.step n S _ _ (newtonStep_eq _ _)
        (fun hall => hc ((newtonRaphsonConverged_iff _ _).2 hall)) (ih _)

/-- Vertically concatenating two zero blocks gives the zero matrix. -/
theorem concatenate_vertical_zero : concatenate_vertical 0 0 = 0 := by
  ext i j
  by_cases hi : (i : ℕ) < 3 <;> simp [concatenate_vertical, hi]

/-! ## Claim theorems -/

/-- C1: the claim says a zero field vector is rejected with a
`DegenerateInputError` and never silently divided by.  The code has no such
path: `computeBMatrices` is `void`, contains no check on `bT_b = b·b`, and
unconditionally scales by `1/bT_b`.  At `b = (0,0,0)` the C code divides by
zero (IEEE: `1/0 = +inf`, then `inf·0 = NaN` entries); in this exact-field
model (`1/0 = 0`) the silent outcome is concrete: the call returns the
defined pair `(B_c, B_d) = (0, 0)` — no error of any kind is surfaced. -/
theorem c1_zero_field_not_rejected (A_c A_d : M66) (J : M33) :
    computeBMatrices A_c A_d J ![0, 0, 0] = (0, 0) := by
  have hb : (![0, 0, 0] : Fin 3 → ℚ) ⬝ᵥ ![0, 0, 0] = (0 : ℚ) := by
    simp [Matrix.dotProduct, Fin.sum_univ_three]
  simp only [computeBMatrices, hb, div_zero, zero_smul, mul_zero, Matrix.mul_zero,
    concatenate_vertical_zero]

/-- C3: on every invocation the Newton process is seeded at the identity —
the entry content `Sbuf` of the output buffer (the previous cycle's solution)
is discarded, as the trace starts at `1` for every `Sbuf` — each pass applies
`S ← ½·(S + S⁻¹·H²)`, and the run returns exactly when all 144 entries of
`S_next - S` are within `1e-3` in absolute value (`NewtonTrace.done` demands
the bound, `NewtonTrace.step` demands its negation). -/
theorem c3_newton_seed_update_stop (H Sbuf : M12) (fuel : ℕ) :
    NewtonTrace H fuel 1 (runNewtonRaphsonProcess H Sbuf fuel) := by
  rw [runNewtonRaphsonProcess]
  exact newtonLoop_trace H fuel 1

/-- C4: the loop has no iteration cap and no error outcome: (1) whenever the
process returns a value, that value is a Newton iterate that passed the
elementwise `1e-3` convergence test against its predecessor — convergence is
the only exit; (2) termination is not guaranteed: on the concrete input
`Hstar` the process returns nothing however much fuel it is given (the C
loop runs forever), and in particular no `ConvergenceError` is ever
produced — the result type has no error alternative at all. -/
theorem c4_no_cap_convergence_only_exit :
    (∀ (H Sbuf : M12) (fuel : ℕ) (S : M12),
        runNewtonRaphsonProcess H Sbuf fuel = some S →
        ∃ Sp : M12, S = (1/2 : ℚ) • (Sp + Sp⁻¹ * (H * H)) ∧
          ∀ i j : Fin 12, |S i j - Sp i j| ≤ (1e-3 : ℚ)) ∧
    (∀ (Sbuf : M12) (fuel : ℕ), runNewtonRaphsonProcess Hstar Sbuf fuel = none) := by
  constructor
  · intro H Sbuf fuel S h
    rw [runNewtonRaphsonProcess] at h
    obtain ⟨Sp, hstep, hconv⟩ := newtonLoop_some (H * H) fuel 1 S h
    refine ⟨Sp, ?_, (newtonRaphsonConverged_iff _ _).1 hconv⟩
    rw [hstep, newtonStep_eq]
  · intro Sbuf fuel
    exact runNewton_hstar_none Sbuf fuel

/-- C4 witness: on `H = 1` with one unit of fuel the process converges on the
first pass, and the theorem exhibits the predecessor that passed the test. -/
theorem c4_witness : ∃ Sp : M12,
    (1 : M12) = (1/2 : ℚ) • (Sp + Sp⁻¹ * ((1 : M12) * 1)) ∧
      ∀ i j : Fin 12, |(1 : M12) i j - Sp i j| ≤ (1e-3 : ℚ) :=
  c4_no_cap_convergence_only_exit.1 1 1 1 1 runNewton_id_one

/-- C5: the claim says a singular input to a required inversion surfaces a
`SingularMatrixError` that propagates to the caller.  The code's `invert` is
`void`: it runs the LU factorization and back-substitution with no
singularity or conditioning check and no error channel, so nothing is ever
surfaced (IEEE: the zero pivot turns into `inf`/`NaN` entries).  In the exact
model the silent outcome is concrete: for every singular matrix the result
buffer is filled with the zero matrix (`det⁻¹ = 0⁻¹ = 0`) and execution
continues normally. -/
theorem c5_invert_singular_silent (n : ℕ) (M : Matrix (Fin n) (Fin n) ℚ)
    (h : M.det = 0) : invert M = 0 := by
  rw [invert, h, inv_zero, zero_smul]

/-- C5 witness: the zero matrix is singular and `invert` silently returns the
zero matrix for it. -/
theorem c5_witness : invert (0 : M33) = 0 :=
  c5_invert_singular_silent 3 0 (by simp)

/-- C9: the skew matrix `bmat` built by `computeBMatrices` satisfies
`[b]×ᵗ = -[b]×` and `[b]×·b = 0` for every field vector `b`. -/
theorem c9_cross_matrix_skew_annihilates (b : Fin 3 → ℚ) :
    (crossMatrix b)ᵀ = -(crossMatrix b) ∧ crossMatrix b *ᵥ b = 0 := by
  constructor
  · ext i j
    fin_cases i <;> fin_cases j <;>
      simp [crossMatrix, Matrix.transpose_apply, Matrix.neg_apply]
  · funext i
    fin_cases i <;>
      simp [crossMatrix, Matrix.mulVec, Matrix.dotProduct, Fin.sum_univ_three,
        Matrix.vecHead, Matrix.vecTail] <;> ring

/-- C10: `updateSensors` stores not the raw state but the state with the
mean-motion constant `1.144035952968e-3` added to component 4 (the second
angular-velocity slot); all other state components and the whole field
vector are stored exactly as read. -/
theorem c10_update_sensors_shifts_component_four (xraw : Fin 6 → ℚ) (braw : Fin 3 → ℚ) :
    updateSensors xraw braw =
      (fun i => if i = 4 then xraw i + (1.144035952968e-3 : ℚ) else xraw i, braw) := by
  refine Prod.ext ?_ rfl
  funext i
  simp only [updateSensors, Function.update_apply, MEAN_MOTION]
  by_cases h : i = 4
  · subst h; simp
  · simp [h]

/-- C6: for every `P`, `A_d`, `B_d`, `R` with `R + B_dᵗ·P·B_d` invertible
(nonzero determinant), `computeGainMatrix` returns exactly
`K = (R + B_dᵗ·P·B_d)⁻¹ · B_dᵗ·P·A_d`.  (The dgemm chain of the source
equals this formula for all inputs; the invertibility hypothesis of the
claim is carried but not needed for the equation itself.) -/
theorem c6_gain_formula (P A_d : M66) (B_d : M63) (R : M33)
    (h : (R + B_dᵀ * P * B_d).det ≠ 0) :
    computeGainMatrix P A_d B_d R = (R + B_dᵀ * P * B_d)⁻¹ * (B_dᵀ * P * A_d) := by
  simp only [computeGainMatrix]
  rw [invert_eq_inv, Matrix.mul_assoc, Matrix.mul_assoc]

/-- C6 witness: at `P = 0`, `A_d = 1`, `B_d = 0`, `R = 1` the cost matrix sum
is the identity, which is invertible. -/
theorem c6_witness :
    computeGainMatrix 0 1 0 1 =
      ((1 : M33) + (0 : M63)ᵀ * (0 : M66) * (0 : M63))⁻¹ *
        ((0 : M63)ᵀ * (0 : M66) * (1 : M66)) :=
  c6_gain_formula 0 1 0 1 (by simp)

/-- C7: for every field vector with `b·b ≠ 0`, `computeBMatrices` builds
`B_c` with zero 3×3 top block and bottom block `J⁻¹·([b]×·[b]×)/(b·b)`, and
`B_d = (-A_c⁻¹·(I - A_d))·B_c`.  The transform factor `-A_c⁻¹·(I - A_d)`
depends only on the constant matrices `A_c`, `A_d` — the value cached by the
first call equals the value used on every later call, which is what the
statement's validity for every `b` under the same constants expresses. -/
theorem c7_input_matrix_construction (A_c A_d : M66) (J : M33) (b : Fin 3 → ℚ)
    (hb : b ⬝ᵥ b ≠ 0) :
    (computeBMatrices A_c A_d J b).1.submatrix (Fin.castAdd 3) id = 0 ∧
    (computeBMatrices A_c A_d J b).1.submatrix (Fin.natAdd 3) id =
      (b ⬝ᵥ b)⁻¹ • (J⁻¹ * (crossMatrix b * crossMatrix b)) ∧
    (computeBMatrices A_c A_d J b).2 =
      -(A_c⁻¹ * (1 - A_d)) * (computeBMatrices A_c A_d J b).1 := by
  refine ⟨?_, ?_, ?_⟩
  · simp only [computeBMatrices]
    exact concatenate_vertical_top _ _
  · simp only [computeBMatrices]
    rw [concatenate_vertical_bot, invert_eq_inv, Matrix.mul_smul, one_div]
  · simp only [computeBMatrices]
    rw [invert_eq_inv, neg_one_smul]

/-- C7 witness: the field vector `(1,0,0)` has nonzero self-dot-product. -/
theorem c7_witness :
    (computeBMatrices 1 1 1 ![1, 0, 0]).1.submatrix (Fin.castAdd 3) id = 0 ∧
    (computeBMatrices 1 1 1 ![1, 0, 0]).1.submatrix (Fin.natAdd 3) id =
      ((![1, 0, 0] : Fin 3 → ℚ) ⬝ᵥ ![1, 0, 0])⁻¹ •
        ((1 : M33)⁻¹ * (crossMatrix ![1, 0, 0] * crossMatrix ![1, 0, 0])) ∧
    (computeBMatrices 1 1 1 ![1, 0, 0]).2 =
      -((1 : M66)⁻¹ * (1 - 1)) * (computeBMatrices 1 1 1 ![1, 0, 0]).1 :=
  c7_input_matrix_construction 1 1 1 ![1, 0, 0]
    (by simp [Matrix.dotProduct, Fin.sum_univ_three])

/-- Mapping with the LU inverse in the extraction step equals mapping with
Mathlib's inverse. -/
theorem map_extract_invert_eq (H : M12) (o : Option M12) :
    (o.map fun S =>
        (H - S).submatrix (Fin.natAdd 6 : Fin 6 → Fin 12) (Fin.castAdd 6 : Fin 6 → Fin 12) *
          invert ((H - S).submatrix (Fin.castAdd 6 : Fin 6 → Fin 12)
            (Fin.castAdd 6 : Fin 6 → Fin 12))) =
      o.map fun S =>
        (H - S).submatrix (Fin.natAdd 6 : Fin 6 → Fin 12) (Fin.castAdd 6 : Fin 6 → Fin 12) *
          ((H - S).submatrix (Fin.castAdd 6 : Fin 6 → Fin 12)
            (Fin.castAdd 6 : Fin 6 → Fin 12))⁻¹ := by
  cases o <;> simp [invert_eq_inv]

/-- C2: for every input `B_d` (and constants `A_d`, `Q`, `R`),
`computePMatrix` forms `N = [[A_d, 0], [-Q, I]]` and
`L = [[I, B_d·R⁻¹·B_dᵗ], [0, A_dᵗ]]`, computes `H = (N+L)⁻¹·(N-L)`, runs the
Newton process on `H`, and — whenever that process returns `S` — returns
`P = X2·X1⁻¹` where `X1` and `X2` are the top-left and bottom-left 6×6
blocks of `H - S` (rows/columns indexed through `finSumFinEquiv`). -/
theorem c2_riccati_block_structure (A_d Q : M66) (R : M33) (B_d : M63) (fuel : ℕ)
    (N L H : M12)
    (hN : N = Matrix.reindex (finSumFinEquiv : Fin 6 ⊕ Fin 6 ≃ Fin 12)
      (finSumFinEquiv : Fin 6 ⊕ Fin 6 ≃ Fin 12) (Matrix.fromBlocks A_d 0 (-Q) 1))
    (hL : L = Matrix.reindex (finSumFinEquiv : Fin 6 ⊕ Fin 6 ≃ Fin 12)
      (finSumFinEquiv : Fin 6 ⊕ Fin 6 ≃ Fin 12)
      (Matrix.fromBlocks 1 (B_d * R⁻¹ * B_dᵀ) 0 A_dᵀ))
    (hH : H = (N + L)⁻¹ * (N - L)) :
    computePMatrix A_d Q R B_d fuel =
      (runNewtonRaphsonProcess H 1 fuel).map fun S =>
        (H - S).submatrix (Fin.natAdd 6) (Fin.castAdd 6) *
          ((H - S).submatrix (Fin.castAdd 6) (Fin.castAdd 6))⁻¹ := by
  simp only [computePMatrix]
  rw [show (-1 : ℚ) • Q = -Q from neg_one_smul ℚ Q]
  rw [show concatenate2x2 A_d 0 (-Q) 1 = N from by rw [hN, concatenate2x2_eq]]
  rw [invert_eq_inv R]
  rw [show B_d * ((R : M33)⁻¹ * B_dᵀ) = B_d * R⁻¹ * B_dᵀ from (Matrix.mul_assoc _ _ _).symm]
  rw [show concatenate2x2 1 (B_d * R⁻¹ * B_dᵀ) 0 A_dᵀ = L from by rw [hL, concatenate2x2_eq]]
  rw [show invert (N + L) * (N - L) = H from by rw [hH, invert_eq_inv]]
  exact map_extract_invert_eq H _

/-- C2 witness: with `A_d = 1`, `Q = 0`, `R = 1`, `B_d = 0` and no fuel the
pipeline is exercised end to end (the Newton process is still running, so no
`P` is produced yet). -/
theorem c2_witness : computePMatrix 1 0 1 0 0 = none := by
  rw [c2_riccati_block_structure 1 0 1 0 0 _ _ _ rfl rfl rfl]
  rfl
